import Mathlib

/-!
Verification development for the benchmark position extraction pipeline of the
jorahn/jorahn.github.io research scripts (`src/research/rook-clf-demo/`).

The chess rules themselves (legality, move application, FEN rendering) are an
external collaborator (`python-chess`); they are modelled by an abstract
`Engine` record of operations, exactly the capability set the scripts consume.
All pipeline logic (the FEN re-encoding of `process_fen_rook_style`, the
odd-index evaluation-point selection loops, the dedup/cap loop, difficulty
bucketing) is embedded from the source.
-/

set_option autoImplicit false

/-! ## Canonical Encoder (`process_fen_rook_style`, convert_gdm_correct.py lines 15-36) -/

/-- One step of `re.sub(r'\d', lambda m: '.' * int(m.group()), position)`:
a digit character `d` becomes `d` filler dots, any other character is kept. -/
def expandChar (c : Char) : List Char :=
  if c.isDigit then List.replicate (c.toNat - 48) '.' else [c]

/-- The piece-placement transform of `process_fen_rook_style`: expand digits
to dots, then `position.replace("/", "")`. -/
def expandPosition (p : List Char) : List Char :=
  ((p.map expandChar).flatten).filter (fun c => c ≠ '/')

/-- Python's `s.ljust(n, c)`: right-pad with `c` up to width `n`
(strings already at least `n` long are returned unchanged). -/
def ljust (s : List Char) (n : Nat) (c : Char) : List Char :=
  s ++ List.replicate (n - s.length) c

/-- The six-field body of `process_fen_rook_style`, operating on the already
split fields: expanded placement, verbatim turn, castling ljust 4, en passant
ljust 2, halfmove ljust 2 plus one extra dot, fullmove ljust 3. -/
def encode_fields (position turn castling en_passant halfmove fullmove : List Char) : List Char :=
  expandPosition position ++ turn ++ ljust castling 4 '.' ++ ljust en_passant 2 '.' ++
    (ljust halfmove 2 '.' ++ ['.']) ++ ljust fullmove 3 '.'

/-- `process_fen_rook_style(fen)`: `fen.split(" ")` is unpacked into exactly six
fields (a `ValueError` for any other count is the `none` branch), then the
fixed-width re-encoding is applied. -/
def process_fen_rook_style (fen : String) : Option String :=
  match fen.splitOn " " with
  | [position, turn, castling, en_passant, halfmove, fullmove] =>
      some (String.mk (encode_fields position.data turn.data castling.data
        en_passant.data halfmove.data fullmove.data))
  | _ => none

/-! ## Syntactic validity of six-field position notation (FEN syntax).

These predicates formalise "syntactically valid six-field position-notation
input" from the spec: 8 slash-separated ranks of piece letters and empty-run
digits 1-8 (no two adjacent digits) covering 8 squares each, side to move
`w`/`b`, castling `-` or an ordered subsequence of `KQkq`, en passant `-` or a
square, and digit strings (of any length) for the two move counters. -/

def isPiece (c : Char) : Bool :=
  c = 'p' || c = 'n' || c = 'b' || c = 'r' || c = 'q' || c = 'k' ||
  c = 'P' || c = 'N' || c = 'B' || c = 'R' || c = 'Q' || c = 'K'

def isFenDigit (c : Char) : Bool :=
  c = '1' || c = '2' || c = '3' || c = '4' ||
  c = '5' || c = '6' || c = '7' || c = '8'

def noConsecDigits : List Char → Bool
  | [] => true
  | [_] => true
  | a :: b :: rest => !(a.isDigit && b.isDigit) && noConsecDigits (b :: rest)

/-- Digit expansion of a single rank (no rank separators inside). -/
def expandRank (r : List Char) : List Char :=
  (r.map expandChar).flatten

def rankChars (r : List Char) : Bool :=
  r.all (fun c => isPiece c || isFenDigit c)

def validRank (r : List Char) : Bool :=
  rankChars r && noConsecDigits r && ((expandRank r).length == 8)

/-- Split a character list on `'/'` (the rank separator). -/
def splitSlash : List Char → List (List Char)
  | [] => [[]]
  | c :: rest =>
    if c = '/' then [] :: splitSlash rest
    else
      match splitSlash rest with
      | [] => [[c]]
      | r :: rs => (c :: r) :: rs

def validPlacement (p : List Char) : Bool :=
  ((splitSlash p).length == 8) && (splitSlash p).all validRank

def validTurn (t : List Char) : Bool :=
  t == ['w'] || t == ['b']

/-- `subseqOf a b`: `a` is an order-preserving subsequence of `b`. -/
def subseqOf : List Char → List Char → Bool
  | [], _ => true
  | _ :: _, [] => false
  | a :: as, b :: bs => if a = b then subseqOf as bs else subseqOf (a :: as) bs

def validCastling (c : List Char) : Bool :=
  c == ['-'] || (!c.isEmpty && subseqOf c ['K', 'Q', 'k', 'q'])

def isFileChar (c : Char) : Bool := 'a' ≤ c && c ≤ 'h'

def isRankChar (c : Char) : Bool := '1' ≤ c && c ≤ '8'

def validEnPassant (e : List Char) : Bool :=
  e == ['-'] ||
    (match e with
     | [f, r] => isFileChar f && isRankChar r
     | _ => false)

/-- A move counter: a nonempty string of decimal digits, of any length. -/
def validClock (h : List Char) : Bool :=
  !h.isEmpty && h.all Char.isDigit

def validFenFields (p t c e h f : List Char) : Bool :=
  validPlacement p && validTurn t && validCastling c &&
    validEnPassant e && validClock h && validClock f

/-! ## The spec's inverse decoder.

Modelled from the spec: the source has no decoder; the spec's round-trip
property describes one ("regrouping the output by the fixed widths
64/1/4/2/3/3, stripping filler characters, and for the placement field
re-compressing runs of filler into digits and reinserting rank separators").
The definitions below follow those words and are compared against
`encode_fields`. -/

/-- Remove all filler characters. -/
def strip_filler (l : List Char) : List Char :=
  l.filter (fun c => c ≠ '.')

def fenDigitChar (n : Nat) : Char :=
  Char.ofNat (48 + n)

/-- Re-compress maximal runs of filler dots into their count digit;
`n` is the length of the dot run read so far. -/
def compressAux (n : Nat) : List Char → List Char
  | [] => if n = 0 then [] else [fenDigitChar n]
  | c :: rest =>
    if c = '.' then compressAux (n + 1) rest
    else (if n = 0 then [] else [fenDigitChar n]) ++ c :: compressAux 0 rest

/-- Cut a 64-character placement into its 8 ranks of 8 squares. -/
def chunkRanks : Nat → List Char → List (List Char)
  | 0, _ => []
  | n + 1, l => l.take 8 :: chunkRanks n (l.drop 8)

def spec_decode_placement (l : List Char) : List Char :=
  List.intercalate ['/'] ((chunkRanks 8 l).map (compressAux 0))

/-- Modelled from the spec: the inverse decoder, regrouping by the fixed
widths 64/1/4/2/3/3 and undoing each field transform. -/
def spec_decode_fen (l : List Char) :
    List Char × List Char × List Char × List Char × List Char × List Char :=
  (spec_decode_placement (l.take 64),
   (l.drop 64).take 1,
   strip_filler ((l.drop 65).take 4),
   strip_filler ((l.drop 69).take 2),
   strip_filler ((l.drop 71).take 3),
   strip_filler ((l.drop 74).take 3))

/-! ## Record Normalizer: rating parsing and difficulty bucketing -/

/-- Python's `str.isdigit()` on the ASCII inputs at hand: nonempty and all
characters decimal digits. -/
def str_isdigit (s : String) : Bool :=
  !s.isEmpty && s.data.all Char.isDigit

/-- `int(row['Rating']) if row['Rating'].isdigit() else 1500`
(convert_lichess.py line 75, convert_gdm_correct.py line 51). -/
def parse_rating (s : String) : Nat :=
  if str_isdigit s then s.toNat?.getD 0 else 1500

/-- `get_difficulty_from_rating` (identical in all three converter files). -/
def get_difficulty_from_rating (rating : Nat) : String :=
  if rating < 1000 then "beginner"
  else if rating < 1500 then "easy"
  else if rating < 2000 then "medium"
  else if rating < 2500 then "hard"
  else "expert"

/-- The `(rating, difficulty)` metadata pair built by
`convert_benchmarks.convert_gdm_puzzles` (lines 96-104): the stored rating
defaults to 0 on a non-numeric field, while the difficulty is computed from a
default of 1500. -/
def gdm_rating_metadata (s : String) : Nat × String :=
  (if str_isdigit s then s.toNat?.getD 0 else 0,
   get_difficulty_from_rating (if str_isdigit s then s.toNat?.getD 0 else 1500))

/-! ## Board Replay Engine (external collaborator)

The converters consume exactly these `python-chess` operations:
`chess.Board(fen)` (may raise), `chess.Move.from_uci(mv)` (may raise),
`move in board.legal_moves`, `board.push(move)` (may raise), `board.fen()`.
They are modelled as an abstract record of pure operations; the pipeline
logic below is proved for every such engine. -/

structure Engine (B M : Type) where
  load : String → Option B
  from_uci : String → Option M
  legal : B → M → Bool
  push : B → M → Option B
  fen : B → String

/-- The fields of an emitted evaluation position that the claims speak about
(`fen`, `correct_move`, and the `puzzle_id` / `move_index_in_sequence`
metadata entries; the remaining metadata is constant or copied through). -/
structure EvalPosition where
  fen : String
  correct_move : String
  puzzle_id : String
  move_index_in_sequence : Nat
deriving DecidableEq

/-! ## Evaluation-Point Selector -/

/-- The emission step of convert_lichess.py lines 88-109: at an odd index,
parse the move; if it parses and is legal in the current (pre-move) board,
emit the position; a parse error or illegal move emits nothing. -/
def emit_step {B M : Type} (E : Engine B M) (pid : String) (idx : Nat) (b : B) (mv : String) :
    List EvalPosition :=
  if idx % 2 = 1 then
    match E.from_uci mv with
    | some m => if E.legal b m then [⟨E.fen b, mv, pid, idx⟩] else []
    | none => []
  else []

/-- The per-puzzle loop of convert_lichess.py lines 84-114: for each move,
possibly emit (odd index, legality-checked), then advance the board with
`board.push(chess.Move.from_uci(mv))`; any failure there breaks the loop. -/
def selectEvalPositions {B M : Type} (E : Engine B M) (pid : String) :
    Nat → B → List String → List EvalPosition
  | _, _, [] => []
  | idx, b, mv :: rest =>
    emit_step E pid idx b mv ++
      match E.from_uci mv with
      | some m =>
        match E.push b m with
        | some b2 => selectEvalPositions E pid (idx + 1) b2 rest
        | none => []
      | none => []

/-- The per-puzzle loop of convert_gdm_correct.py lines 75-109. It differs
from `selectEvalPositions` in one corner: a parse failure inside the odd-index
evaluation block runs `continue`, skipping the advance step entirely, so the
board is not pushed and the remaining moves are still processed. -/
def selectEvalPositionsGdm {B M : Type} (E : Engine B M) (pid : String) :
    Nat → B → List String → List EvalPosition
  | _, _, [] => []
  | idx, b, mv :: rest =>
    if idx % 2 = 1 then
      match E.from_uci mv with
      | none => selectEvalPositionsGdm E pid (idx + 1) b rest
      | some m =>
        (if E.legal b m then [⟨E.fen b, mv, pid, idx⟩] else []) ++
          match E.push b m with
          | some b2 => selectEvalPositionsGdm E pid (idx + 1) b2 rest
          | none => []
    else
      match E.from_uci mv with
      | none => []
      | some m =>
        match E.push b m with
        | some b2 => selectEvalPositionsGdm E pid (idx + 1) b2 rest
        | none => []

/-- Replay a move sequence with parse-and-push, failing at the first move that
cannot be parsed or applied. -/
def replayMoves {B M : Type} (E : Engine B M) : B → List String → Option B
  | b, [] => some b
  | b, mv :: rest =>
    match E.from_uci mv with
    | some m =>
      match E.push b m with
      | some b2 => replayMoves E b2 rest
      | none => none
    | none => none

/-- `is_plausible_uci` from convert_lichess.py lines 36-45: a purely syntactic
check on a UCI move string. -/
def is_plausible_uci (mv : String) : Bool :=
  match mv.data with
  | [f1, r1, f2, r2] =>
    isFileChar f1 && isRankChar r1 && isFileChar f2 && isRankChar r2
  | [f1, r1, f2, r2, p] =>
    isFileChar f1 && isRankChar r1 && isFileChar f2 && isRankChar r2 &&
      (p = 'n' || p = 'b' || p = 'r' || p = 'q')
  | _ => false

/-- The HAVE_CHESS-false fallback of convert_lichess.py lines 120-137: emit the
first move of the puzzle against the raw row FEN whenever it merely looks like
a UCI move; no board and no legality check are involved. (The emitted dict has
no `move_index_in_sequence` key; it is rendered as index 0 here.) -/
def lichess_fallback (pid : String) (fen : String) (moves : List String) : List EvalPosition :=
  match moves with
  | [] => []
  | mv :: _ => if is_plausible_uci mv then [⟨fen, mv, pid, 0⟩] else []

/-- The single-position emitter of convert_benchmarks.convert_gdm_puzzles
lines 81-105 (convert_benchmarks.convert_lichess_puzzles lines 162-190 and
convert_gdm_action.py lines 30-51 are the same shape): load the row FEN,
parse the first move, and emit it only when it is legal in the loaded
board. -/
def gdm_first_move_position {B M : Type} (E : Engine B M) (pid : String) (fen : String)
    (moves : List String) : List EvalPosition :=
  match moves with
  | [] => []
  | mv :: _ =>
    match E.load fen with
    | none => []
    | some b =>
      match E.from_uci mv with
      | none => []
      | some m => if E.legal b m then [⟨fen, mv, pid, 0⟩] else []

/-- The per-example emitter of convert_benchmarks.convert_bigbench_checkmate
lines 22-50: replay the PGN transcript to its final board (`load_pgn` models
`chess.pgn.read_game` followed by pushing every move of
`game.mainline_moves()`; any exception skips the example), parse the SAN
target with `board.parse_san` — which raises, modelled `none`, unless the
text denotes a move legal in the board — and emit the final position with the
parsed move's UCI rendering. The emitted dict carries no `puzzle_id`; it is
rendered as `""` here. -/
def bigbench_checkmate_position {B M : Type} (E : Engine B M)
    (load_pgn : String → Option B) (parse_san : B → String → Option M)
    (uci : M → String) (pgn target : String) : List EvalPosition :=
  match load_pgn pgn with
  | none => []
  | some b =>
    match parse_san b target with
    | none => []
    | some m => [⟨E.fen b, uci m, "", 0⟩]

/-! ## Deduplication & Cap Controller and Benchmark Assembler -/

/-- The uniform intermediate record the Record Normalizer extracts from a CSV
row: identifier, base position and solution moves. -/
structure PuzzleRecord where
  puzzle_id : String
  fen : String
  moves : List String
deriving DecidableEq

/-- `seen_puzzles.add(puzzle_id)` on the set of already accepted identities. -/
def insert_seen (pid : String) (seen : List String) : List String :=
  if pid ∈ seen then seen else pid :: seen

/-- The per-row work of convert_lichess.py: skip empty move lists (line 72),
build the board from the row FEN (an exception skips the row), and run the
Evaluation-Point Selector. -/
def emit_of_row {B M : Type} (E : Engine B M) (r : PuzzleRecord) : List EvalPosition :=
  if r.moves.isEmpty then []
  else
    match E.load r.fen with
    | some b => selectEvalPositions E r.puzzle_id 0 b r.moves
    | none => []

/-- The shared outer loop of convert_lichess.py lines 115-146 and
convert_gdm_correct.py lines 111-122, abstracted over the per-record emitter:
extend the output and record the puzzle identity only when the record
contributed at least one position, and break once the number of accepted
identities has reached the cap (the check runs after each record). -/
def convert_loop (emitf : PuzzleRecord → List EvalPosition) (cap : Nat) :
    List PuzzleRecord → List EvalPosition → List String → List EvalPosition × List String
  | [], acc, seen => (acc, seen)
  | r :: rs, acc, seen =>
    let ps := emitf r
    let acc2 := if ps.isEmpty then acc else acc ++ ps
    let seen2 := if ps.isEmpty then seen else insert_seen r.puzzle_id seen
    if cap ≤ seen2.length then (acc2, seen2) else convert_loop emitf cap rs acc2 seen2

/-- The distinct `puzzle_id` values among a list of emitted positions. -/
def distinct_puzzle_ids (ps : List EvalPosition) : List String :=
  (ps.map EvalPosition.puzzle_id).dedup

/-- The benchmark artifact assembled at the end of a run (the float
`target_accuracy` field is omitted from the model; it is a constant). -/
structure BenchmarkArtifact where
  name : String
  description : String
  citation : String
  source_url : String
  positions : List EvalPosition
deriving DecidableEq

/-- convert_lichess.py lines 52-173: a failed decompression (`zstd` returning
nonzero; `subprocess.run(..., check=True)` raising in the
convert_benchmarks.py variant) ends the run before any benchmark file is
written; on success the artifact wraps the loop's emitted positions. -/
def convert_lichess_run {B M : Type} (E : Engine B M) (cap : Nat)
    (decompressed : Except String (List PuzzleRecord)) : Option BenchmarkArtifact :=
  match decompressed with
  | Except.error _ => none
  | Except.ok rows =>
    some
      { name := "Lichess Puzzle Benchmark"
        description := "Tactical puzzle positions from Lichess.org, evaluated at model turns"
        citation := "Lichess.org puzzle database"
        source_url := "https://database.lichess.org/"
        positions := (convert_loop (emit_of_row E) cap rows [] []).1 }

/-! ## Concrete test engines (used by witnesses and counterexamples) -/

/-- An engine over `Unit` in which no move is ever legal. -/
def unitEngine : Engine Unit Unit where
  load := fun _ => some ()
  from_uci := fun _ => some ()
  legal := fun _ _ => false
  push := fun _ _ => some ()
  fen := fun _ => "F"

/-- An engine whose boards are ply counters: every move string parses to
itself, every move is legal and pushes successfully. -/
def natEngine : Engine Nat String where
  load := fun _ => some 0
  from_uci := fun s => some s
  legal := fun _ _ => true
  push := fun b _ => some (b + 1)
  fen := fun b => Nat.repr b

/-- An engine in which the move `"??"` fails to parse and the move `"bad"`
parses but is illegal and cannot be pushed. -/
def haltEngine : Engine Nat String where
  load := fun _ => some 0
  from_uci := fun s => if s = "??" then none else some s
  legal := fun _ m => !(m = "bad")
  push := fun b m => if m = "bad" then none else some (b + 1)
  fen := fun b => Nat.repr b

/-! ## Helper lemmas: the Canonical Encoder -/

lemma expandChar_piece {c : Char} (h : isPiece c = true) :
    expandChar c = [c] ∧ c ≠ '.' ∧ c ≠ '/' ∧ c.isDigit = false := by
  simp only [isPiece, Bool.or_eq_true, decide_eq_true_eq] at h
  rcases h with ((((((((((rfl | rfl) | rfl) | rfl) | rfl) | rfl) | rfl) | rfl) | rfl) | rfl) | rfl) | rfl <;>
    exact ⟨by decide, by decide, by decide, by decide⟩

lemma expandChar_fenDigit {c : Char} (h : isFenDigit c = true) :
    expandChar c = List.replicate (c.toNat - 48) '.' ∧ 1 ≤ c.toNat - 48 ∧
      fenDigitChar (c.toNat - 48) = c ∧ c.isDigit = true := by
  simp only [isFenDigit, Bool.or_eq_true, decide_eq_true_eq] at h
  rcases h with ((((((rfl | rfl) | rfl) | rfl) | rfl) | rfl) | rfl) | rfl <;>
    exact ⟨by decide, by decide, by decide, by decide⟩

lemma splitSlash_cons_slash (rest : List Char) :
    splitSlash ('/' :: rest) = [] :: splitSlash rest := by
  simp [splitSlash]

lemma splitSlash_cons_of_ne {c : Char} (hc : c ≠ '/') {rest r : List Char}
    {rs : List (List Char)} (hs : splitSlash rest = r :: rs) :
    splitSlash (c :: rest) = (c :: r) :: rs := by
  simp [splitSlash, hc, hs]

lemma splitSlash_ne_nil (l : List Char) : splitSlash l ≠ [] := by
  cases l with
  | nil => simp [splitSlash]
  | cons c rest =>
    by_cases hc : c = '/'
    · simp [splitSlash, hc]
    · simp only [splitSlash, hc, if_false]
      cases splitSlash rest <;> simp

lemma intercalate_cons_cons (s x y : List Char) (zs : List (List Char)) :
    List.intercalate s (x :: y :: zs) = x ++ s ++ List.intercalate s (y :: zs) := by
  simp [List.intercalate, List.intersperse, List.append_assoc]

lemma intercalate_single (s x : List Char) : List.intercalate s [x] = x := by
  simp [List.intercalate, List.intersperse]

lemma intercalate_splitSlash : ∀ l : List Char, List.intercalate ['/'] (splitSlash l) = l := by
  intro l
  induction l with
  | nil => simp [splitSlash, intercalate_single]
  | cons c rest ih =>
    rcases hs : splitSlash rest with _ | ⟨r, rs⟩
    · exact absurd hs (splitSlash_ne_nil rest)
    · rw [hs] at ih
      by_cases hc : c = '/'
      · subst hc
        rw [splitSlash_cons_slash, hs, intercalate_cons_cons]
        simp [ih]
      · rw [splitSlash_cons_of_ne hc hs]
        cases rs with
        | nil =>
          rw [intercalate_single]
          rw [intercalate_single] at ih
          simp [ih]
        | cons y ys =>
          rw [intercalate_cons_cons]
          rw [intercalate_cons_cons] at ih
          simp only [List.cons_append, List.append_assoc, List.nil_append] at ih ⊢
          simp [ih]

lemma expandPosition_eq (p : List Char) :
    expandPosition p = ((splitSlash p).map expandRank).flatten := by
  induction p with
  | nil => simp [expandPosition, splitSlash, expandRank]
  | cons c rest ih =>
    rcases hs : splitSlash rest with _ | ⟨r, rs⟩
    · exact absurd hs (splitSlash_ne_nil rest)
    · rw [hs] at ih
      by_cases hc : c = '/'
      · subst hc
        simp only [expandPosition, List.map_cons, List.flatten_cons, List.filter_append] at ih ⊢
        have h1 : expandChar '/' = ['/'] := by decide
        rw [h1, splitSlash_cons_slash, hs]
        simp only [List.map_cons, List.flatten_cons]
        simpa [expandRank] using ih
      · simp only [expandPosition, List.map_cons, List.flatten_cons, List.filter_append] at ih ⊢
        have h1 : (expandChar c).filter (fun x => x ≠ '/') = expandChar c := by
          rw [List.filter_eq_self]
          intro a ha
          simp only [expandChar] at ha
          split at ha
          · rw [List.eq_of_mem_replicate ha]; decide
          · simp only [List.mem_singleton] at ha
            subst ha
            simpa using hc
        rw [h1, splitSlash_cons_of_ne hc hs]
        simp only [List.map_cons, List.flatten_cons] at ih ⊢
        rw [ih]
        simp [expandRank, List.append_assoc]

lemma expandRank_cons (c : Char) (r : List Char) :
    expandRank (c :: r) = expandChar c ++ expandRank r := by
  simp [expandRank]

lemma noConsecDigits_tail {a : Char} {l : List Char} (h : noConsecDigits (a :: l) = true) :
    noConsecDigits l = true := by
  cases l with
  | nil => rfl
  | cons b t =>
    have : noConsecDigits (a :: b :: t) = (!(a.isDigit && b.isDigit) && noConsecDigits (b :: t)) := rfl
    rw [this, Bool.and_eq_true] at h
    exact h.2

lemma noConsecDigits_head {a b : Char} {t : List Char}
    (h : noConsecDigits (a :: b :: t) = true) : (a.isDigit && b.isDigit) = false := by
  have : noConsecDigits (a :: b :: t) = (!(a.isDigit && b.isDigit) && noConsecDigits (b :: t)) := rfl
  rw [this, Bool.and_eq_true] at h
  cases hab : (a.isDigit && b.isDigit) with
  | false => rfl
  | true => rw [hab] at h; simp at h

lemma compress_replicate : ∀ (m : Nat) (n : Nat) (t : List Char),
    compressAux n (List.replicate m '.' ++ t) = compressAux (n + m) t := by
  intro m
  induction m with
  | zero => intro n t; simp
  | succ k ih =>
    intro n t
    have hstep : compressAux n ('.' :: (List.replicate k '.' ++ t)) =
        compressAux (n + 1) (List.replicate k '.' ++ t) := by
      simp [compressAux]
    rw [List.replicate_succ, List.cons_append, hstep, ih (n + 1) t]
    congr 1
    omega

lemma compress_expandRank : ∀ r : List Char, rankChars r = true → noConsecDigits r = true →
    compressAux 0 (expandRank r) = r := by
  intro r
  induction r with
  | nil => intro _ _; simp [expandRank, compressAux]
  | cons c rest ih =>
    intro hchars hnc
    have hcs : (isPiece c || isFenDigit c) = true ∧ rankChars rest = true := by
      simpa [rankChars, List.all_cons, Bool.and_eq_true] using hchars
    rcases Bool.or_eq_true_iff.mp hcs.1 with hp | hd
    · -- piece character: expands to itself
      obtain ⟨he, hdot, _, _⟩ := expandChar_piece hp
      rw [expandRank_cons, he]
      have hstep : compressAux 0 (c :: expandRank rest) = c :: compressAux 0 (expandRank rest) := by
        simp [compressAux, hdot]
      simp only [List.cons_append, List.nil_append, hstep]
      rw [ih hcs.2 (noConsecDigits_tail hnc)]
    · -- digit character: expands to a dot run
      obtain ⟨he, hn1, hdig, hisd⟩ := expandChar_fenDigit hd
      rw [expandRank_cons, he, compress_replicate]
      have hne : ¬(c.toNat - 48 = 0) := by omega
      cases rest with
      | nil =>
        simp [expandRank, compressAux, hne, hdig]
      | cons d rest2 =>
        have hdnd : d.isDigit = false := by
          have := noConsecDigits_head hnc
          rw [hisd] at this
          simpa using this
        have hds : (isPiece d || isFenDigit d) = true ∧ rankChars rest2 = true := by
          simpa [rankChars, List.all_cons, Bool.and_eq_true] using hcs.2
        have hdp : isPiece d = true := by
          rcases Bool.or_eq_true_iff.mp hds.1 with h | h
          · exact h
          · exact absurd (expandChar_fenDigit h).2.2.2 (by simp [hdnd])
        obtain ⟨hde, hddot, _, _⟩ := expandChar_piece hdp
        rw [expandRank_cons, hde]
        have hstep : compressAux (0 + (c.toNat - 48)) (d :: expandRank rest2) =
            [fenDigitChar (0 + (c.toNat - 48))] ++ d :: compressAux 0 (expandRank rest2) := by
          simp [compressAux, hddot, hne]
        simp only [List.cons_append, List.nil_append, hstep]
        have hih := ih hcs.2 (noConsecDigits_tail hnc)
        rw [expandRank_cons, hde] at hih
        have hih2 : compressAux 0 (d :: expandRank rest2) =
            d :: compressAux 0 (expandRank rest2) := by
          simp [compressAux, hddot]
        rw [List.cons_append, List.nil_append, hih2] at hih
        have htail : compressAux 0 (expandRank rest2) = rest2 := by
          exact (List.cons.injEq _ _ _ _).mp hih |>.2
        rw [htail]
        simp [hdig]

lemma subseqOf_length_le : ∀ (b a : List Char), subseqOf a b = true → a.length ≤ b.length := by
  intro b
  induction b with
  | nil =>
    intro a h
    cases a with
    | nil => simp
    | cons x xs => simp [subseqOf] at h
  | cons y ys ih =>
    intro a h
    cases a with
    | nil => simp
    | cons x xs =>
      by_cases hxy : x = y
      · have : subseqOf xs ys = true := by simpa [subseqOf, hxy] using h
        have := ih xs this
        simp only [List.length_cons]
        omega
      · have : subseqOf (x :: xs) ys = true := by simpa [subseqOf, hxy] using h
        have := ih (x :: xs) this
        simp only [List.length_cons] at this ⊢
        omega

lemma subseqOf_subset : ∀ (b a : List Char), subseqOf a b = true → ∀ x ∈ a, x ∈ b := by
  intro b
  induction b with
  | nil =>
    intro a h x hx
    cases a with
    | nil => simp at hx
    | cons z zs => simp [subseqOf] at h
  | cons y ys ih =>
    intro a h x hx
    cases a with
    | nil => simp at hx
    | cons z zs =>
      by_cases hzy : z = y
      · have hsub : subseqOf zs ys = true := by simpa [subseqOf, hzy] using h
        rcases List.mem_cons.mp hx with rfl | hx2
        · simp [hzy]
        · exact List.mem_cons_of_mem _ (ih zs hsub x hx2)
      · have hsub : subseqOf (z :: zs) ys = true := by simpa [subseqOf, hzy] using h
        exact List.mem_cons_of_mem _ (ih (z :: zs) hsub x hx)

lemma bool_and_parts {a b : Bool} (h : (a && b) = true) : a = true ∧ b = true := by
  simp only [Bool.and_eq_true] at h
  exact h

lemma validCastling_facts {c : List Char} (h : validCastling c = true) :
    c.length ≤ 4 ∧ ∀ x ∈ c, x ≠ '.' := by
  rcases Bool.or_eq_true_iff.mp h with h1 | h2
  · have : c = ['-'] := by simpa using h1
    subst this
    refine ⟨by simp, ?_⟩
    intro x hx
    simp only [List.mem_singleton] at hx
    subst hx
    decide
  · have hsub : subseqOf c ['K', 'Q', 'k', 'q'] = true := (bool_and_parts h2).2
    refine ⟨by simpa using subseqOf_length_le _ _ hsub, ?_⟩
    intro x hx
    have := subseqOf_subset _ _ hsub x hx
    simp only [List.mem_cons, List.not_mem_nil, or_false] at this
    rcases this with rfl | rfl | rfl | rfl <;> decide

lemma validEnPassant_facts {e : List Char} (h : validEnPassant e = true) :
    e.length ≤ 2 ∧ ∀ x ∈ e, x ≠ '.' := by
  rcases Bool.or_eq_true_iff.mp h with h1 | h2
  · have : e = ['-'] := by simpa using h1
    subst this
    refine ⟨by simp, ?_⟩
    intro x hx
    simp only [List.mem_singleton] at hx
    subst hx
    decide
  · match e, h2 with
    | [f, r], h2 =>
      have hf : isFileChar f = true := (bool_and_parts h2).1
      have hr : isRankChar r = true := (bool_and_parts h2).2
      refine ⟨by simp, ?_⟩
      intro x hx
      simp only [List.mem_cons, List.not_mem_nil, or_false] at hx
      rcases hx with rfl | rfl
      · intro hdot
        subst hdot
        simp [isFileChar] at hf
      · intro hdot
        subst hdot
        simp [isRankChar] at hr

lemma validTurn_facts {t : List Char} (h : validTurn t = true) :
    t.length = 1 ∧ ∀ x ∈ t, x ≠ '.' := by
  rcases Bool.or_eq_true_iff.mp h with h1 | h1
  · have ht : t = ['w'] := by simpa using h1
    subst ht
    exact ⟨rfl, by intro x hx; simp only [List.mem_singleton] at hx; subst hx; decide⟩
  · have ht : t = ['b'] := by simpa using h1
    subst ht
    exact ⟨rfl, by intro x hx; simp only [List.mem_singleton] at hx; subst hx; decide⟩

lemma validClock_facts {h : List Char} (hv : validClock h = true) :
    ∀ x ∈ h, x ≠ '.' := by
  intro x hx hdot
  subst hdot
  have hall := (bool_and_parts hv).2
  rw [List.all_eq_true] at hall
  have := hall _ hx
  simp at this

lemma ljust_length_of_le {s : List Char} {n : Nat} (c : Char) (h : s.length ≤ n) :
    (ljust s n c).length = n := by
  simp only [ljust, List.length_append, List.length_replicate]
  omega

lemma strip_filler_pad {s : List Char} (hs : ∀ x ∈ s, x ≠ '.') (k : Nat) :
    strip_filler (s ++ List.replicate k '.') = s := by
  simp only [strip_filler, List.filter_append]
  have h1 : s.filter (fun c => c ≠ '.') = s := by
    rw [List.filter_eq_self]
    intro a ha
    simpa using hs a ha
  have h2 : (List.replicate k '.').filter (fun c : Char => c ≠ '.') = [] := by
    rw [List.filter_eq_nil_iff]
    intro a ha
    rw [List.eq_of_mem_replicate ha]
    simp
  rw [h1, h2, List.append_nil]

lemma validPlacement_parts {p : List Char} (h : validPlacement p = true) :
    (splitSlash p).length = 8 ∧ ∀ r ∈ splitSlash p, validRank r = true := by
  have h1 := bool_and_parts h
  refine ⟨by simpa using h1.1, ?_⟩
  have := h1.2
  rw [List.all_eq_true] at this
  intro r hr
  exact this r hr

lemma validRank_parts {r : List Char} (h : validRank r = true) :
    rankChars r = true ∧ noConsecDigits r = true ∧ (expandRank r).length = 8 := by
  have h1 := bool_and_parts h
  have h2 := bool_and_parts h1.1
  exact ⟨h2.1, h2.2, by simpa using h1.2⟩

lemma flatten_length_eq : ∀ (rs : List (List Char)), (∀ r ∈ rs, r.length = 8) →
    rs.flatten.length = 8 * rs.length := by
  intro rs
  induction rs with
  | nil => simp
  | cons r rest ih =>
    intro h
    have hr : r.length = 8 := h r (List.mem_cons_self _ _)
    have := ih (fun x hx => h x (List.mem_cons_of_mem _ hx))
    simp only [List.flatten_cons, List.length_append, List.length_cons, this, hr]
    ring

lemma expandPosition_length {p : List Char} (h : validPlacement p = true) :
    (expandPosition p).length = 64 := by
  obtain ⟨hlen, hranks⟩ := validPlacement_parts h
  rw [expandPosition_eq]
  have : ∀ r ∈ (splitSlash p).map expandRank, r.length = 8 := by
    intro r hr
    rcases List.mem_map.mp hr with ⟨x, hx, rfl⟩
    exact (validRank_parts (hranks x hx)).2.2
  rw [flatten_length_eq _ this]
  simp [hlen]

lemma chunkRanks_flatten : ∀ (rs : List (List Char)), (∀ r ∈ rs, r.length = 8) →
    chunkRanks rs.length rs.flatten = rs := by
  intro rs
  induction rs with
  | nil => simp [chunkRanks]
  | cons r rest ih =>
    intro h
    have hr : r.length = 8 := h r (List.mem_cons_self _ _)
    simp only [List.length_cons, List.flatten_cons, chunkRanks]
    rw [List.take_left' hr, List.drop_left' hr,
      ih (fun x hx => h x (List.mem_cons_of_mem _ hx))]

lemma validFenFields_parts {p t c e h f : List Char} (hv : validFenFields p t c e h f = true) :
    validPlacement p = true ∧ validTurn t = true ∧ validCastling c = true ∧
      validEnPassant e = true ∧ validClock h = true ∧ validClock f = true := by
  have h1 := bool_and_parts hv
  have h2 := bool_and_parts h1.1
  have h3 := bool_and_parts h2.1
  have h4 := bool_and_parts h3.1
  have h5 := bool_and_parts h4.1
  exact ⟨h5.1, h5.2, h4.2, h3.2, h2.2, h1.2⟩

lemma drop_append_len {α : Type} {a l : List α} {n : Nat} (k : Nat) (h : a.length = n) :
    (a ++ l).drop (n + k) = l.drop k := by
  subst h
  exact List.drop_append k

lemma encode_fields_length_eq {p t c e h f : List Char}
    (hv : validFenFields p t c e h f = true) (hh : h.length ≤ 2) (hf : f.length ≤ 3) :
    (encode_fields p t c e h f).length = 77 := by
  obtain ⟨hvp, hvt, hvc, hve, _, _⟩ := validFenFields_parts hv
  have hA := expandPosition_length hvp
  have hT := (validTurn_facts hvt).1
  have hC := ljust_length_of_le '.' (validCastling_facts hvc).1
  have hE := ljust_length_of_le '.' (validEnPassant_facts hve).1
  have hH := ljust_length_of_le '.' hh
  have hF := ljust_length_of_le '.' hf
  simp only [encode_fields, List.length_append, List.length_cons, List.length_nil,
    hA, hT, hC, hE, hH, hF]

lemma spec_decode_placement_expand {p : List Char} (h : validPlacement p = true) :
    spec_decode_placement (expandPosition p) = p := by
  obtain ⟨hlen, hranks⟩ := validPlacement_parts h
  rw [spec_decode_placement, expandPosition_eq]
  have hmap : ∀ r ∈ (splitSlash p).map expandRank, r.length = 8 := by
    intro r hr
    rcases List.mem_map.mp hr with ⟨x, hx, rfl⟩
    exact (validRank_parts (hranks x hx)).2.2
  have h8 : ((splitSlash p).map expandRank).length = 8 := by simp [hlen]
  rw [← h8, chunkRanks_flatten _ hmap, List.map_map]
  have : ((splitSlash p).map (compressAux 0 ∘ expandRank)) = (splitSlash p).map id := by
    apply List.map_congr_left
    intro r hr
    obtain ⟨hc1, hc2, _⟩ := validRank_parts (hranks r hr)
    simpa using compress_expandRank r hc1 hc2
  rw [this, List.map_id, intercalate_splitSlash]

lemma encode_decode_roundtrip {p t c e h f : List Char}
    (hv : validFenFields p t c e h f = true) (hh : h.length ≤ 2) (hf : f.length ≤ 3) :
    spec_decode_fen (encode_fields p t c e h f) = (p, t, c, e, h, f) := by
  obtain ⟨hvp, hvt, hvc, hve, hvh, hvf⟩ := validFenFields_parts hv
  obtain ⟨htl, htd⟩ := validTurn_facts hvt
  obtain ⟨hcl, hcd⟩ := validCastling_facts hvc
  obtain ⟨hel, hed⟩ := validEnPassant_facts hve
  have hhd := validClock_facts hvh
  have hfd := validClock_facts hvf
  have hA : (expandPosition p).length = 64 := expandPosition_length hvp
  have hC : (ljust c 4 '.').length = 4 := ljust_length_of_le '.' hcl
  have hE : (ljust e 2 '.').length = 2 := ljust_length_of_le '.' hel
  have hH : (ljust h 2 '.' ++ ['.']).length = 3 := by
    simp [List.length_append, ljust_length_of_le '.' hh]
  have hF : (ljust f 3 '.').length = 3 := ljust_length_of_le '.' hf
  have henc : encode_fields p t c e h f =
      expandPosition p ++ (t ++ (ljust c 4 '.' ++ (ljust e 2 '.' ++
        ((ljust h 2 '.' ++ ['.']) ++ ljust f 3 '.')))) := by
    simp [encode_fields, List.append_assoc]
  rw [henc]
  have d64 :
      (expandPosition p ++ (t ++ (ljust c 4 '.' ++ (ljust e 2 '.' ++
        ((ljust h 2 '.' ++ ['.']) ++ ljust f 3 '.'))))).drop 64 =
      t ++ (ljust c 4 '.' ++ (ljust e 2 '.' ++
        ((ljust h 2 '.' ++ ['.']) ++ ljust f 3 '.'))) := List.drop_left' hA
  have d65 :
      (expandPosition p ++ (t ++ (ljust c 4 '.' ++ (ljust e 2 '.' ++
        ((ljust h 2 '.' ++ ['.']) ++ ljust f 3 '.'))))).drop 65 =
      ljust c 4 '.' ++ (ljust e 2 '.' ++ ((ljust h 2 '.' ++ ['.']) ++ ljust f 3 '.')) := by
    rw [show (65 : Nat) = 64 + 1 by norm_num, drop_append_len 1 hA, List.drop_left' htl]
  have d69 :
      (expandPosition p ++ (t ++ (ljust c 4 '.' ++ (ljust e 2 '.' ++
        ((ljust h 2 '.' ++ ['.']) ++ ljust f 3 '.'))))).drop 69 =
      ljust e 2 '.' ++ ((ljust h 2 '.' ++ ['.']) ++ ljust f 3 '.') := by
    rw [show (69 : Nat) = 64 + 5 by norm_num, drop_append_len 5 hA,
      show (5 : Nat) = 1 + 4 by norm_num, drop_append_len 4 htl, List.drop_left' hC]
  have d71 :
      (expandPosition p ++ (t ++ (ljust c 4 '.' ++ (ljust e 2 '.' ++
        ((ljust h 2 '.' ++ ['.']) ++ ljust f 3 '.'))))).drop 71 =
      (ljust h 2 '.' ++ ['.']) ++ ljust f 3 '.' := by
    rw [show (71 : Nat) = 64 + 7 by norm_num, drop_append_len 7 hA,
      show (7 : Nat) = 1 + 6 by norm_num, drop_append_len 6 htl,
      show (6 : Nat) = 4 + 2 by norm_num, drop_append_len 2 hC, List.drop_left' hE]
  have d74 :
      (expandPosition p ++ (t ++ (ljust c 4 '.' ++ (ljust e 2 '.' ++
        ((ljust h 2 '.' ++ ['.']) ++ ljust f 3 '.'))))).drop 74 =
      ljust f 3 '.' := by
    rw [show (74 : Nat) = 64 + 10 by norm_num, drop_append_len 10 hA,
      show (10 : Nat) = 1 + 9 by norm_num, drop_append_len 9 htl,
      show (9 : Nat) = 4 + 5 by norm_num, drop_append_len 5 hC,
      show (5 : Nat) = 2 + 3 by norm_num, drop_append_len 3 hE, List.drop_left' hH]
  simp only [spec_decode_fen, List.take_left' hA, d64, d65, d69, d71, d74, Prod.mk.injEq]
  refine ⟨?_, ?_, ?_, ?_, ?_, ?_⟩
  · exact spec_decode_placement_expand hvp
  · exact List.take_left' htl
  · rw [List.take_left' hC]
    exact strip_filler_pad hcd _
  · rw [List.take_left' hE]
    exact strip_filler_pad hed _
  · rw [List.take_left' hH]
    have : ljust h 2 '.' ++ ['.'] = h ++ List.replicate (2 - h.length + 1) '.' := by
      simp [ljust, List.replicate_succ', List.append_assoc]
    rw [this]
    exact strip_filler_pad hhd _
  · rw [List.take_of_length_le (le_of_eq hF)]
    exact strip_filler_pad hfd _

/-! ## Helper lemmas: the Evaluation-Point Selector -/

section SelectorLemmas

variable {B M : Type} (E : Engine B M) (pid : String)

lemma emit_step_even {idx : Nat} {b : B} {mv : String} (h : idx % 2 = 0) :
    emit_step E pid idx b mv = [] := by
  simp [emit_step, h]

lemma length_emit_step_le (idx : Nat) (b : B) (mv : String) :
    (emit_step E pid idx b mv).length ≤ 1 := by
  rw [emit_step]
  split
  · cases hfu : E.from_uci mv <;> simp
    split <;> simp
  · simp

lemma mem_emit_step {idx : Nat} {b : B} {mv : String} {p : EvalPosition}
    (hp : p ∈ emit_step E pid idx b mv) :
    p = ⟨E.fen b, mv, pid, idx⟩ ∧ idx % 2 = 1 ∧
      ∃ m, E.from_uci mv = some m ∧ E.legal b m = true := by
  rw [emit_step] at hp
  split at hp
  · rename_i hodd
    cases hfu : E.from_uci mv with
    | none => rw [hfu] at hp; simp at hp
    | some m =>
      rw [hfu] at hp
      by_cases hl : E.legal b m = true
      · refine ⟨?_, hodd, m, rfl, hl⟩
        simpa [hl] using hp
      · simp [hl] at hp
  · simp at hp

lemma sel_nil (idx : Nat) (b : B) : selectEvalPositions E pid idx b [] = [] := rfl

lemma sel_cons_parse_none {idx : Nat} {b : B} {mv : String} (rest : List String)
    (hfu : E.from_uci mv = none) :
    selectEvalPositions E pid idx b (mv :: rest) = emit_step E pid idx b mv := by
  simp [selectEvalPositions, hfu]

lemma sel_cons_push_none {idx : Nat} {b : B} {mv : String} {m : M} (rest : List String)
    (hfu : E.from_uci mv = some m) (hpu : E.push b m = none) :
    selectEvalPositions E pid idx b (mv :: rest) = emit_step E pid idx b mv := by
  simp [selectEvalPositions, hfu, hpu]

lemma sel_cons_step {idx : Nat} {b : B} {mv : String} {m : M} {b2 : B} (rest : List String)
    (hfu : E.from_uci mv = some m) (hpu : E.push b m = some b2) :
    selectEvalPositions E pid idx b (mv :: rest) =
      emit_step E pid idx b mv ++ selectEvalPositions E pid (idx + 1) b2 rest := by
  simp [selectEvalPositions, hfu, hpu]

lemma selector_mem_facts : ∀ (ms : List String) (idx : Nat) (b : B) (p : EvalPosition),
    p ∈ selectEvalPositions E pid idx b ms →
    p.puzzle_id = pid ∧ p.move_index_in_sequence % 2 = 1 ∧
      idx ≤ p.move_index_in_sequence ∧ p.move_index_in_sequence < idx + ms.length := by
  intro ms
  induction ms with
  | nil => intro idx b p hp; simp [sel_nil] at hp
  | cons mv rest ih =>
    intro idx b p hp
    have hsplit : p ∈ emit_step E pid idx b mv ∨
        ∃ m b2, E.from_uci mv = some m ∧ E.push b m = some b2 ∧
          p ∈ selectEvalPositions E pid (idx + 1) b2 rest := by
      cases hfu : E.from_uci mv with
      | none => rw [sel_cons_parse_none E pid rest hfu] at hp; exact Or.inl hp
      | some m =>
        cases hpu : E.push b m with
        | none => rw [sel_cons_push_none E pid rest hfu hpu] at hp; exact Or.inl hp
        | some b2 =>
          rw [sel_cons_step E pid rest hfu hpu] at hp
          rcases List.mem_append.mp hp with h1 | h2
          · exact Or.inl h1
          · exact Or.inr ⟨m, b2, rfl, hpu, h2⟩
    rcases hsplit with h1 | ⟨m, b2, _, _, h2⟩
    · obtain ⟨rfl, hodd, _⟩ := mem_emit_step E pid h1
      exact ⟨rfl, hodd, le_refl _, by simp⟩
    · obtain ⟨hpid, hodd, hlb, hub⟩ := ih (idx + 1) b2 p h2
      refine ⟨hpid, hodd, by omega, ?_⟩
      simp only [List.length_cons]
      omega

lemma selector_length_le : ∀ (ms : List String) (idx : Nat) (b : B),
    (selectEvalPositions E pid idx b ms).length ≤ (ms.length + idx % 2) / 2 := by
  intro ms
  induction ms with
  | nil => intro idx b; simp [sel_nil]
  | cons mv rest ih =>
    intro idx b
    have hemit := length_emit_step_le E pid idx b mv
    have hcase : (selectEvalPositions E pid idx b (mv :: rest)).length ≤
        (emit_step E pid idx b mv).length +
          (rest.length + (idx + 1) % 2) / 2 := by
      cases hfu : E.from_uci mv with
      | none => rw [sel_cons_parse_none E pid rest hfu]; omega
      | some m =>
        cases hpu : E.push b m with
        | none => rw [sel_cons_push_none E pid rest hfu hpu]; omega
        | some b2 =>
          rw [sel_cons_step E pid rest hfu hpu]
          have := ih (idx + 1) b2
          simp only [List.length_append]
          omega
    rcases Nat.mod_two_eq_zero_or_one idx with hpar | hpar
    · have hz : emit_step E pid idx b mv = [] := emit_step_even E pid hpar
      rw [hz] at hcase
      simp only [List.length_nil, List.length_cons] at hcase ⊢
      omega
    · simp only [List.length_cons] at hcase ⊢
      omega

lemma selector_append : ∀ (xs ys : List String) (idx : Nat) (b : B),
    selectEvalPositions E pid idx b (xs ++ ys) =
      selectEvalPositions E pid idx b xs ++
        (match replayMoves E b xs with
         | some b2 => selectEvalPositions E pid (idx + xs.length) b2 ys
         | none => []) := by
  intro xs
  induction xs with
  | nil =>
    intro ys idx b
    simp [sel_nil, replayMoves]
  | cons mv rest ih =>
    intro ys idx b
    cases hfu : E.from_uci mv with
    | none =>
      rw [List.cons_append, sel_cons_parse_none E pid (rest ++ ys) hfu,
        sel_cons_parse_none E pid rest hfu]
      simp [replayMoves, hfu]
    | some m =>
      cases hpu : E.push b m with
      | none =>
        rw [List.cons_append, sel_cons_push_none E pid (rest ++ ys) hfu hpu,
          sel_cons_push_none E pid rest hfu hpu]
        simp [replayMoves, hfu, hpu]
      | some b2 =>
        rw [List.cons_append, sel_cons_step E pid (rest ++ ys) hfu hpu,
          sel_cons_step E pid rest hfu hpu, ih ys (idx + 1) b2]
        have hrepl : replayMoves E b (mv :: rest) = replayMoves E b2 rest := by
          simp [replayMoves, hfu, hpu]
        rw [hrepl]
        have harith : idx + 1 + rest.length = idx + (mv :: rest).length := by
          simp only [List.length_cons]
          omega
        rw [harith, List.append_assoc]

lemma selector_replay_facts : ∀ (ms : List String) (idx : Nat) (b : B) (p : EvalPosition),
    p ∈ selectEvalPositions E pid idx b ms →
    ∃ b2 m, replayMoves E b (ms.take (p.move_index_in_sequence - idx)) = some b2 ∧
      E.fen b2 = p.fen ∧ E.from_uci p.correct_move = some m ∧ E.legal b2 m = true := by
  intro ms
  induction ms with
  | nil => intro idx b p hp; simp [sel_nil] at hp
  | cons mv rest ih =>
    intro idx b p hp
    have hsplit : p ∈ emit_step E pid idx b mv ∨
        ∃ m b2, E.from_uci mv = some m ∧ E.push b m = some b2 ∧
          p ∈ selectEvalPositions E pid (idx + 1) b2 rest := by
      cases hfu : E.from_uci mv with
      | none => rw [sel_cons_parse_none E pid rest hfu] at hp; exact Or.inl hp
      | some m =>
        cases hpu : E.push b m with
        | none => rw [sel_cons_push_none E pid rest hfu hpu] at hp; exact Or.inl hp
        | some b2 =>
          rw [sel_cons_step E pid rest hfu hpu] at hp
          rcases List.mem_append.mp hp with h1 | h2
          · exact Or.inl h1
          · exact Or.inr ⟨m, b2, rfl, hpu, h2⟩
    rcases hsplit with h1 | ⟨m, b2, hfu, hpu, h2⟩
    · obtain ⟨rfl, _, m, hm, hl⟩ := mem_emit_step E pid h1
      refine ⟨b, m, ?_, rfl, hm, hl⟩
      simp [replayMoves]
    · obtain ⟨b3, m2, hrep, hfen, hm2, hl2⟩ := ih (idx + 1) b2 p h2
      have hlb := (selector_mem_facts E pid rest (idx + 1) b2 p h2).2.2.1
      refine ⟨b3, m2, ?_, hfen, hm2, hl2⟩
      have htake : (mv :: rest).take (p.move_index_in_sequence - idx) =
          mv :: rest.take (p.move_index_in_sequence - (idx + 1)) := by
        have : p.move_index_in_sequence - idx = (p.move_index_in_sequence - (idx + 1)) + 1 := by
          omega
        rw [this, List.take_succ_cons]
      rw [htake]
      simp [replayMoves, hfu, hpu, hrep]

end SelectorLemmas

section GdmLemmas

variable {B M : Type} (E : Engine B M) (pid : String)

lemma gdm_nil (idx : Nat) (b : B) : selectEvalPositionsGdm E pid idx b [] = [] := rfl

lemma gdm_cons_odd_parse_none {idx : Nat} {b : B} {mv : String} (rest : List String)
    (hodd : idx % 2 = 1) (hfu : E.from_uci mv = none) :
    selectEvalPositionsGdm E pid idx b (mv :: rest) =
      selectEvalPositionsGdm E pid (idx + 1) b rest := by
  simp [selectEvalPositionsGdm, hodd, hfu]

lemma gdm_cons_odd_push_none {idx : Nat} {b : B} {mv : String} {m : M} (rest : List String)
    (hodd : idx % 2 = 1) (hfu : E.from_uci mv = some m) (hpu : E.push b m = none) :
    selectEvalPositionsGdm E pid idx b (mv :: rest) =
      (if E.legal b m then [⟨E.fen b, mv, pid, idx⟩] else []) := by
  simp [selectEvalPositionsGdm, hodd, hfu, hpu]

lemma gdm_cons_odd_step {idx : Nat} {b : B} {mv : String} {m : M} {b2 : B} (rest : List String)
    (hodd : idx % 2 = 1) (hfu : E.from_uci mv = some m) (hpu : E.push b m = some b2) :
    selectEvalPositionsGdm E pid idx b (mv :: rest) =
      (if E.legal b m then [⟨E.fen b, mv, pid, idx⟩] else []) ++
        selectEvalPositionsGdm E pid (idx + 1) b2 rest := by
  simp [selectEvalPositionsGdm, hodd, hfu, hpu]

lemma gdm_cons_even_parse_none {idx : Nat} {b : B} {mv : String} (rest : List String)
    (heven : idx % 2 = 0) (hfu : E.from_uci mv = none) :
    selectEvalPositionsGdm E pid idx b (mv :: rest) = [] := by
  have hne : ¬(idx % 2 = 1) := by omega
  simp [selectEvalPositionsGdm, hne, hfu]

lemma gdm_cons_even_push_none {idx : Nat} {b : B} {mv : String} {m : M} (rest : List String)
    (heven : idx % 2 = 0) (hfu : E.from_uci mv = some m) (hpu : E.push b m = none) :
    selectEvalPositionsGdm E pid idx b (mv :: rest) = [] := by
  have hne : ¬(idx % 2 = 1) := by omega
  simp [selectEvalPositionsGdm, hne, hfu, hpu]

lemma gdm_cons_even_step {idx : Nat} {b : B} {mv : String} {m : M} {b2 : B} (rest : List String)
    (heven : idx % 2 = 0) (hfu : E.from_uci mv = some m) (hpu : E.push b m = some b2) :
    selectEvalPositionsGdm E pid idx b (mv :: rest) =
      selectEvalPositionsGdm E pid (idx + 1) b2 rest := by
  have hne : ¬(idx % 2 = 1) := by omega
  simp [selectEvalPositionsGdm, hne, hfu, hpu]

lemma gdm_mem_facts : ∀ (ms : List String) (idx : Nat) (b : B) (p : EvalPosition),
    p ∈ selectEvalPositionsGdm E pid idx b ms →
    p.puzzle_id = pid ∧ p.move_index_in_sequence % 2 = 1 ∧
      ∃ b2 m, E.fen b2 = p.fen ∧ E.from_uci p.correct_move = some m ∧ E.legal b2 m = true := by
  intro ms
  induction ms with
  | nil => intro idx b p hp; simp [gdm_nil] at hp
  | cons mv rest ih =>
    intro idx b p hp
    rcases Nat.mod_two_eq_zero_or_one idx with hpar | hpar
    · cases hfu : E.from_uci mv with
      | none => rw [gdm_cons_even_parse_none E pid rest hpar hfu] at hp; simp at hp
      | some m =>
        cases hpu : E.push b m with
        | none => rw [gdm_cons_even_push_none E pid rest hpar hfu hpu] at hp; simp at hp
        | some b2 =>
          rw [gdm_cons_even_step E pid rest hpar hfu hpu] at hp
          exact ih (idx + 1) b2 p hp
    · cases hfu : E.from_uci mv with
      | none =>
        rw [gdm_cons_odd_parse_none E pid rest hpar hfu] at hp
        exact ih (idx + 1) b p hp
      | some m =>
        have hemit : ∀ q : EvalPosition,
            q ∈ (if E.legal b m then [(⟨E.fen b, mv, pid, idx⟩ : EvalPosition)] else []) →
            q.puzzle_id = pid ∧ q.move_index_in_sequence % 2 = 1 ∧
              ∃ b2 m2, E.fen b2 = q.fen ∧ E.from_uci q.correct_move = some m2 ∧
                E.legal b2 m2 = true := by
          intro q hq
          by_cases hl : E.legal b m = true
          · rw [if_pos hl] at hq
            simp only [List.mem_singleton] at hq
            subst hq
            exact ⟨rfl, hpar, b, m, rfl, hfu, hl⟩
          · simp [hl] at hq
        cases hpu : E.push b m with
        | none =>
          rw [gdm_cons_odd_push_none E pid rest hpar hfu hpu] at hp
          exact hemit p hp
        | some b2 =>
          rw [gdm_cons_odd_step E pid rest hpar hfu hpu] at hp
          rcases List.mem_append.mp hp with h1 | h2
          · exact hemit p h1
          · exact ih (idx + 1) b2 p h2

lemma gdm_length_le : ∀ (ms : List String) (idx : Nat) (b : B),
    (selectEvalPositionsGdm E pid idx b ms).length ≤ (ms.length + idx % 2) / 2 := by
  intro ms
  induction ms with
  | nil => intro idx b; simp [gdm_nil]
  | cons mv rest ih =>
    intro idx b
    rcases Nat.mod_two_eq_zero_or_one idx with hpar | hpar
    · have hnext : (idx + 1) % 2 = 1 := by omega
      cases hfu : E.from_uci mv with
      | none =>
        rw [gdm_cons_even_parse_none E pid rest hpar hfu]
        simp
      | some m =>
        cases hpu : E.push b m with
        | none =>
          rw [gdm_cons_even_push_none E pid rest hpar hfu hpu]
          simp
        | some b2 =>
          rw [gdm_cons_even_step E pid rest hpar hfu hpu]
          have := ih (idx + 1) b2
          rw [hnext] at this
          simp only [List.length_cons]
          omega
    · have hnext : (idx + 1) % 2 = 0 := by omega
      cases hfu : E.from_uci mv with
      | none =>
        rw [gdm_cons_odd_parse_none E pid rest hpar hfu]
        have := ih (idx + 1) b
        rw [hnext] at this
        simp only [List.length_cons]
        omega
      | some m =>
        have hemit2 : (if E.legal b m then [(⟨E.fen b, mv, pid, idx⟩ : EvalPosition)] else []).length ≤ 1 := by
          split <;> simp
        cases hpu : E.push b m with
        | none =>
          rw [gdm_cons_odd_push_none E pid rest hpar hfu hpu]
          simp only [List.length_cons]
          omega
        | some b2 =>
          rw [gdm_cons_odd_step E pid rest hpar hfu hpu]
          have := ih (idx + 1) b2
          rw [hnext] at this
          simp only [List.length_append, List.length_cons]
          omega

end GdmLemmas

/-! ## Helper lemmas: Deduplication & Cap Controller -/

lemma emit_of_row_pid {B M : Type} (E : Engine B M) :
    ∀ (r : PuzzleRecord) (p : EvalPosition), p ∈ emit_of_row E r →
      p.puzzle_id = r.puzzle_id := by
  intro r p hp
  rw [emit_of_row] at hp
  split at hp
  · simp at hp
  · cases hload : E.load r.fen with
    | none => rw [hload] at hp; simp at hp
    | some b =>
      rw [hload] at hp
      exact (selector_mem_facts E r.puzzle_id r.moves 0 b p hp).1

lemma insert_seen_mem_self (pid : String) (seen : List String) :
    pid ∈ insert_seen pid seen := by
  rw [insert_seen]
  split
  · assumption
  · exact List.mem_cons_self _ _

lemma insert_seen_mem_of {x pid : String} {seen : List String} (h : x ∈ seen) :
    x ∈ insert_seen pid seen := by
  rw [insert_seen]
  split
  · exact h
  · exact List.mem_cons_of_mem _ h

lemma insert_seen_length_le (pid : String) (seen : List String) :
    (insert_seen pid seen).length ≤ seen.length + 1 := by
  rw [insert_seen]
  split <;> simp

lemma subset_length_le {l1 l2 : List String} (h1 : l1.Nodup) (h2 : l1 ⊆ l2) :
    l1.length ≤ l2.length :=
  (List.Nodup.subperm h1 h2).length_le

lemma convert_loop_cons (emitf : PuzzleRecord → List EvalPosition) (cap : Nat)
    (r : PuzzleRecord) (rs : List PuzzleRecord) (acc : List EvalPosition) (seen : List String) :
    convert_loop emitf cap (r :: rs) acc seen =
      (if cap ≤ (if (emitf r).isEmpty then seen
                 else insert_seen r.puzzle_id seen).length
       then ((if (emitf r).isEmpty then acc else acc ++ emitf r),
             (if (emitf r).isEmpty then seen else insert_seen r.puzzle_id seen))
       else convert_loop emitf cap rs
              (if (emitf r).isEmpty then acc else acc ++ emitf r)
              (if (emitf r).isEmpty then seen else insert_seen r.puzzle_id seen)) := rfl

lemma convert_loop_invariant (emitf : PuzzleRecord → List EvalPosition)
    (hemit : ∀ r p, p ∈ emitf r → p.puzzle_id = r.puzzle_id) (cap : Nat) :
    ∀ (rows : List PuzzleRecord) (acc : List EvalPosition) (seen : List String),
      (∀ p ∈ acc, p.puzzle_id ∈ seen) → seen.length < cap →
      ((∀ p ∈ (convert_loop emitf cap rows acc seen).1,
          p.puzzle_id ∈ (convert_loop emitf cap rows acc seen).2) ∧
        (convert_loop emitf cap rows acc seen).2.length ≤ cap) := by
  intro rows
  induction rows with
  | nil =>
    intro acc seen hacc hlt
    exact ⟨hacc, le_of_lt hlt⟩
  | cons r rs ih =>
    intro acc seen hacc hlt
    rw [convert_loop_cons]
    by_cases hps : (emitf r).isEmpty = true
    · simp only [if_pos hps]
      have hcap : ¬(cap ≤ seen.length) := by omega
      simp only [if_neg hcap]
      exact ih acc seen hacc hlt
    · have hacc2 : ∀ p ∈ acc ++ emitf r, p.puzzle_id ∈ insert_seen r.puzzle_id seen := by
        intro p hp
        rcases List.mem_append.mp hp with h1 | h2
        · exact insert_seen_mem_of (hacc p h1)
        · rw [hemit r p h2]
          exact insert_seen_mem_self _ _
      have hlen2 : (insert_seen r.puzzle_id seen).length ≤ cap := by
        have := insert_seen_length_le r.puzzle_id seen
        omega
      simp only [if_neg hps]
      by_cases hcap : cap ≤ (insert_seen r.puzzle_id seen).length
      · simp only [if_pos hcap]
        exact ⟨hacc2, hlen2⟩
      · simp only [if_neg hcap]
        exact ih (acc ++ emitf r) (insert_seen r.puzzle_id seen) hacc2 (by omega)

lemma distinct_ids_le_cap (emitf : PuzzleRecord → List EvalPosition)
    (hemit : ∀ r p, p ∈ emitf r → p.puzzle_id = r.puzzle_id) {cap : Nat} (hcap : 1 ≤ cap)
    (rows : List PuzzleRecord) :
    (distinct_puzzle_ids (convert_loop emitf cap rows [] []).1).length ≤ cap := by
  obtain ⟨hmem, hlen⟩ := convert_loop_invariant emitf hemit cap rows [] []
    (by intro p hp; simp at hp) (by simpa using hcap)
  rw [distinct_puzzle_ids]
  have hsub : ((convert_loop emitf cap rows [] []).1.map EvalPosition.puzzle_id).dedup ⊆
      (convert_loop emitf cap rows [] []).2 := by
    intro x hx
    have hx2 : x ∈ (convert_loop emitf cap rows [] []).1.map EvalPosition.puzzle_id :=
      List.dedup_subset _ hx
    rcases List.mem_map.mp hx2 with ⟨p, hp, rfl⟩
    exact hmem p hp
  have := subset_length_le (List.nodup_dedup _) hsub
  omega

section MoreSelectorLemmas

variable {B M : Type} (E : Engine B M) (pid : String)

lemma emit_step_odd_legal {idx : Nat} {b : B} {mv : String} {m : M}
    (hodd : idx % 2 = 1) (hfu : E.from_uci mv = some m) (hl : E.legal b m = true) :
    emit_step E pid idx b mv = [⟨E.fen b, mv, pid, idx⟩] := by
  simp [emit_step, hodd, hfu, hl]

lemma emit_step_illegal {idx : Nat} {b : B} {mv : String} {m : M}
    (hfu : E.from_uci mv = some m) (hl : E.legal b m = false) :
    emit_step E pid idx b mv = [] := by
  simp [emit_step, hfu, hl]

lemma selector_append_ok {xs : List String} {b b2 : B} (ys : List String) (idx : Nat)
    (hrep : replayMoves E b xs = some b2) :
    selectEvalPositions E pid idx b (xs ++ ys) =
      selectEvalPositions E pid idx b xs ++
        selectEvalPositions E pid (idx + xs.length) b2 ys := by
  rw [selector_append E pid xs ys idx b, hrep]

lemma gdm_first_move_legal (fen : String) (ms : List String) (p : EvalPosition)
    (hp : p ∈ gdm_first_move_position E pid fen ms) :
    ∃ b m, E.load p.fen = some b ∧ E.from_uci p.correct_move = some m ∧
      E.legal b m = true := by
  cases ms with
  | nil => simp [gdm_first_move_position] at hp
  | cons mv rest =>
    cases hload : E.load fen with
    | none => simp [gdm_first_move_position, hload] at hp
    | some b =>
      cases hfu : E.from_uci mv with
      | none => simp [gdm_first_move_position, hload, hfu] at hp
      | some m =>
        by_cases hl : E.legal b m = true
        · have hpe : p = ⟨fen, mv, pid, 0⟩ := by
            simpa [gdm_first_move_position, hload, hfu, hl] using hp
          subst hpe
          exact ⟨b, m, hload, hfu, hl⟩
        · simp [gdm_first_move_position, hload, hfu, hl] at hp

lemma bigbench_checkmate_legal (load_pgn : String → Option B)
    (parse_san : B → String → Option M) (uci : M → String)
    (hsan : ∀ (b : B) (s : String) (m : M), parse_san b s = some m → E.legal b m = true)
    (pgn target : String) (p : EvalPosition)
    (hp : p ∈ bigbench_checkmate_position E load_pgn parse_san uci pgn target) :
    ∃ b m, E.fen b = p.fen ∧ uci m = p.correct_move ∧ E.legal b m = true := by
  cases hload : load_pgn pgn with
  | none => simp [bigbench_checkmate_position, hload] at hp
  | some b =>
    cases hsanp : parse_san b target with
    | none => simp [bigbench_checkmate_position, hload, hsanp] at hp
    | some m =>
      have hpe : p = ⟨E.fen b, uci m, "", 0⟩ := by
        simpa [bigbench_checkmate_position, hload, hsanp] using hp
      subst hpe
      exact ⟨b, m, rfl, rfl, hsan b target m hsanp⟩

end MoreSelectorLemmas

/-! ## Claim theorems -/

/-- Claim C1: for every PuzzleRecord with `solution_moves` of length `L`, both
sequential converters' Evaluation-Point Selectors emit at most `⌈L/2⌉`
positions, and every emitted position's zero-based sequence index is odd
(indices 0, 2, 4, … are replay-only). Proved for every Board Replay Engine. -/
theorem selector_count_le_and_odd {B M : Type} (E : Engine B M) (pid : String) (b : B)
    (ms : List String) :
    ((selectEvalPositions E pid 0 b ms).length ≤ (ms.length + 1) / 2 ∧
      ∀ p ∈ selectEvalPositions E pid 0 b ms, p.move_index_in_sequence % 2 = 1) ∧
    ((selectEvalPositionsGdm E pid 0 b ms).length ≤ (ms.length + 1) / 2 ∧
      ∀ p ∈ selectEvalPositionsGdm E pid 0 b ms, p.move_index_in_sequence % 2 = 1) := by
  refine ⟨⟨?_, ?_⟩, ?_, ?_⟩
  · have := selector_length_le E pid ms 0 b
    omega
  · intro p hp
    exact (selector_mem_facts E pid ms 0 b p hp).2.1
  · have := gdm_length_le E pid ms 0 b
    omega
  · intro p hp
    exact (gdm_mem_facts E pid ms 0 b p hp).2.1

/-- Witness for C1 at a concrete engine and two-move sequence: one position is
emitted (at most `⌈2/2⌉ = 1`) and its index 1 is odd. -/
theorem selector_count_le_and_odd_witness :
    (selectEvalPositions natEngine "pz" 0 0 ["e2e4", "e7e5"]).length ≤ 1 ∧
      (⟨"1", "e7e5", "pz", 1⟩ : EvalPosition).move_index_in_sequence % 2 = 1 := by
  refine ⟨?_, ?_⟩
  · have h := (selector_count_le_and_odd natEngine "pz" 0 ["e2e4", "e7e5"]).1.1
    simpa using h
  · exact (selector_count_le_and_odd natEngine "pz" 0 ["e2e4", "e7e5"]).1.2 _ (by decide)

/-- Claim C2: on `solution_moves = ["e2e4","e7e5","g1f3"]` from the start
position `b0`, the selector emits exactly one EvaluationPosition, at index 1,
with `expected_move = "e7e5"` and the pre-move position reached by applying
only `"e2e4"` (the board `b1`). Stated for every Board Replay Engine in which
these moves parse, `"e2e4"` applies at `b0`, and `"e7e5"` is legal in `b1` —
exactly the chess facts of the scenario. -/
theorem selector_start_scenario {B M : Type} (E : Engine B M) (pid : String)
    (b0 b1 : B) (m1 m2 : M)
    (hfu1 : E.from_uci "e2e4" = some m1) (hpu1 : E.push b0 m1 = some b1)
    (hfu2 : E.from_uci "e7e5" = some m2) (hl2 : E.legal b1 m2 = true) :
    selectEvalPositions E pid 0 b0 ["e2e4", "e7e5", "g1f3"] =
      [⟨E.fen b1, "e7e5", pid, 1⟩] := by
  rw [show (["e2e4", "e7e5", "g1f3"] : List String) = "e2e4" :: ["e7e5", "g1f3"] from rfl,
    sel_cons_step E pid _ hfu1 hpu1, emit_step_even E pid (by norm_num)]
  simp only [List.nil_append]
  have hrest : ∀ b2 : B, selectEvalPositions E pid 2 b2 ["g1f3"] = [] := by
    intro b2
    cases hfu3 : E.from_uci "g1f3" with
    | none =>
      rw [sel_cons_parse_none E pid _ hfu3, emit_step_even E pid (by norm_num)]
    | some m3 =>
      cases hpu3 : E.push b2 m3 with
      | none =>
        rw [sel_cons_push_none E pid _ hfu3 hpu3, emit_step_even E pid (by norm_num)]
      | some b3 =>
        rw [sel_cons_step E pid _ hfu3 hpu3, emit_step_even E pid (by norm_num),
          List.nil_append, sel_nil]
  cases hpu2 : E.push b1 m2 with
  | none =>
    rw [sel_cons_push_none E pid _ hfu2 hpu2,
      emit_step_odd_legal E pid (by norm_num) hfu2 hl2]
  | some b2 =>
    rw [sel_cons_step E pid _ hfu2 hpu2,
      emit_step_odd_legal E pid (by norm_num) hfu2 hl2, hrest b2, List.append_nil]

/-- Witness for C2 with a concrete engine whose boards count plies: the single
emitted position records the board after `"e2e4"` only. -/
theorem selector_start_scenario_witness :
    selectEvalPositions natEngine "pz" 0 0 ["e2e4", "e7e5", "g1f3"] =
      [⟨"1", "e7e5", "pz", 1⟩] := by
  have h := selector_start_scenario natEngine "pz" 0 1 "e2e4" "e7e5" rfl rfl rfl rfl
  simpa using h

/-- Counterexample to claim C3 as stated, at cap `C = 0`: the cap check runs
only after a record has been fully processed, so with cap 0 the first
contributing record is still accepted and the number of distinct `puzzle_id`
values among emitted positions is 1, exceeding the cap. -/
theorem cap_zero_counterexample :
    ¬((distinct_puzzle_ids (convert_loop (emit_of_row natEngine) 0
        [⟨"p1", "f", ["a", "b"]⟩] [] []).1).length ≤ 0) := by
  decide

/-- Claim C3 (amended to caps `C ≥ 1`): for every run with cap `C ≥ 1`, the
number of distinct `puzzle_id` values among all emitted positions never
exceeds `C`; and a record whose selector output is empty changes neither the
output nor the accepted set, and does not halt processing. Stated for every
per-record emitter whose emissions carry the record's identity (both
sequential converters' loops share this shape). -/
theorem cap_invariant_pos_cap (emitf : PuzzleRecord → List EvalPosition)
    (hemit : ∀ r p, p ∈ emitf r → p.puzzle_id = r.puzzle_id) (cap : Nat) (hcap : 1 ≤ cap) :
    (∀ rows, (distinct_puzzle_ids (convert_loop emitf cap rows [] []).1).length ≤ cap) ∧
    (∀ (r : PuzzleRecord) (rs : List PuzzleRecord) (acc : List EvalPosition)
        (seen : List String), emitf r = [] → seen.length < cap →
      convert_loop emitf cap (r :: rs) acc seen = convert_loop emitf cap rs acc seen) := by
  refine ⟨fun rows => distinct_ids_le_cap emitf hemit hcap rows, ?_⟩
  intro r rs acc seen hps hlt
  rw [convert_loop_cons]
  have hempty : (emitf r).isEmpty = true := by simp [hps]
  simp only [if_pos hempty]
  have hcap2 : ¬(cap ≤ seen.length) := by omega
  simp only [if_neg hcap2]

/-- Witness for C3 at the default cap 1000: a one-record run stays within the
cap, and a record with no moves (hence no emissions) is skipped without
halting. -/
theorem cap_invariant_pos_cap_witness :
    (distinct_puzzle_ids (convert_loop (emit_of_row natEngine) 1000
        [⟨"p1", "f", ["a", "b"]⟩] [] []).1).length ≤ 1000 ∧
      convert_loop (emit_of_row natEngine) 1000 [⟨"p0", "f", []⟩, ⟨"p1", "f", ["a", "b"]⟩] [] [] =
        convert_loop (emit_of_row natEngine) 1000 [⟨"p1", "f", ["a", "b"]⟩] [] [] := by
  have h := cap_invariant_pos_cap (emit_of_row natEngine) (emit_of_row_pid natEngine)
    1000 (by norm_num)
  exact ⟨h.1 _, h.2 _ _ [] [] rfl (by norm_num)⟩

/-- Counterexample to claim C4 as stated: a syntactically valid input whose
halfmove clock has three digits (`"100"`, legal in standard position notation)
encodes to 78 characters, not 77. -/
theorem encoder_length_counterexample :
    validFenFields "8/8/8/8/8/8/8/8".data "w".data "-".data "-".data "100".data "1".data
        = true ∧
      (encode_fields "8/8/8/8/8/8/8/8".data "w".data "-".data "-".data "100".data
        "1".data).length ≠ 77 := by
  exact ⟨by decide, by decide⟩

/-- Claim C4 (amended): for every syntactically valid six-field input whose
halfmove field has at most 2 characters and whose fullmove field has at most 3
characters (true of all positions with halfmove clock ≤ 99 and fullmove
number ≤ 999), the Canonical Encoder's output has length exactly
64+1+4+2+3+3 = 77. -/
theorem encoder_length_77_bounded {p t c e h f : List Char}
    (hv : validFenFields p t c e h f = true) (hh : h.length ≤ 2) (hf : f.length ≤ 3) :
    (encode_fields p t c e h f).length = 77 :=
  encode_fields_length_eq hv hh hf

/-- Witness for C4 at the standard start position fields: length 77, castling
segment `"KQkq"` unpadded, en-passant segment `"-."` with one filler. -/
theorem encoder_length_77_bounded_witness :
    (encode_fields "rnbqkbnr/pppppppp/8/8/8/8/PPPPPPPP/RNBQKBNR".data "w".data "KQkq".data
        "-".data "0".data "1".data).length = 77 ∧
      ((encode_fields "rnbqkbnr/pppppppp/8/8/8/8/PPPPPPPP/RNBQKBNR".data "w".data "KQkq".data
        "-".data "0".data "1".data).drop 65).take 4 = "KQkq".data ∧
      ((encode_fields "rnbqkbnr/pppppppp/8/8/8/8/PPPPPPPP/RNBQKBNR".data "w".data "KQkq".data
        "-".data "0".data "1".data).drop 69).take 2 = "-.".data := by
  refine ⟨encoder_length_77_bounded (by decide) (by decide) (by decide), by decide, by decide⟩

/-- Counterexample to claim C5 as stated: for the syntactically valid input
with fullmove field `"1000"` the fixed-width decoder reads back `"100"`, so
the round-trip fails. -/
theorem encoder_roundtrip_counterexample :
    validFenFields "8/8/8/8/8/8/8/8".data "w".data "-".data "-".data "0".data "1000".data
        = true ∧
      spec_decode_fen (encode_fields "8/8/8/8/8/8/8/8".data "w".data "-".data "-".data
          "0".data "1000".data) ≠
        ("8/8/8/8/8/8/8/8".data, "w".data, "-".data, "-".data, "0".data, "1000".data) := by
  exact ⟨by decide, by decide⟩

/-- Claim C5 (amended): for every syntactically valid six-field input whose
halfmove field has at most 2 characters and whose fullmove field has at most 3
characters, encoding and then inverse-decoding (regrouping by the widths
64/1/4/2/3/3, stripping filler, re-compressing filler runs into digits and
reinserting rank separators) recovers the original six fields exactly. -/
theorem encoder_roundtrip_bounded {p t c e h f : List Char}
    (hv : validFenFields p t c e h f = true) (hh : h.length ≤ 2) (hf : f.length ≤ 3) :
    spec_decode_fen (encode_fields p t c e h f) = (p, t, c, e, h, f) :=
  encode_decode_roundtrip hv hh hf

/-- Witness for C5: the round-trip at the standard start position fields. -/
theorem encoder_roundtrip_bounded_witness :
    spec_decode_fen (encode_fields "rnbqkbnr/pppppppp/8/8/8/8/PPPPPPPP/RNBQKBNR".data
        "w".data "KQkq".data "-".data "0".data "1".data) =
      ("rnbqkbnr/pppppppp/8/8/8/8/PPPPPPPP/RNBQKBNR".data, "w".data, "KQkq".data,
        "-".data, "0".data, "1".data) :=
  encoder_roundtrip_bounded (by decide) (by decide) (by decide)

/-- Counterexample to claim C6 as stated: a non-numeric rating defaults to
1500, but the bucketing sends 1500 to `"medium"` (the `"easy"` bucket is
`r < 1500`), and `convert_benchmarks.convert_gdm_puzzles` stores rating 0, not
1500, in the metadata. -/
theorem rating_default_counterexample :
    str_isdigit "N/A" = false ∧ parse_rating "N/A" = 1500 ∧
      get_difficulty_from_rating (parse_rating "N/A") ≠ "easy" ∧
      (gdm_rating_metadata "N/A").1 ≠ 1500 := by
  decide

/-- Claim C6 (amended): a non-numeric rating field is parsed as the default
1500 by the sequential converters, whose difficulty bucket is `"medium"`;
`convert_benchmarks.convert_gdm_puzzles` stores metadata rating 0 with the
same `"medium"` bucket; and the bucketing maps `r < 1000` to `beginner`,
`1000 ≤ r < 1500` to `easy`, `1500 ≤ r < 2000` to `medium`, `2000 ≤ r < 2500`
to `hard`, and `2500 ≤ r` to `expert`. -/
theorem rating_default_and_buckets (s : String) (hs : str_isdigit s = false) (r : Nat) :
    parse_rating s = 1500 ∧
    get_difficulty_from_rating (parse_rating s) = "medium" ∧
    gdm_rating_metadata s = (0, "medium") ∧
    (r < 1000 → get_difficulty_from_rating r = "beginner") ∧
    (1000 ≤ r → r < 1500 → get_difficulty_from_rating r = "easy") ∧
    (1500 ≤ r → r < 2000 → get_difficulty_from_rating r = "medium") ∧
    (2000 ≤ r → r < 2500 → get_difficulty_from_rating r = "hard") ∧
    (2500 ≤ r → get_difficulty_from_rating r = "expert") := by
  refine ⟨?_, ?_, ?_, ?_, ?_, ?_, ?_, ?_⟩
  · simp [parse_rating, hs]
  · simp [parse_rating, hs]
    decide
  · simp [gdm_rating_metadata, hs]
    decide
  · intro h1
    simp [get_difficulty_from_rating, h1]
  · intro h1 h2
    have hn : ¬(r < 1000) := by omega
    simp [get_difficulty_from_rating, hn, h2]
  · intro h1 h2
    have hn1 : ¬(r < 1000) := by omega
    have hn2 : ¬(r < 1500) := by omega
    simp [get_difficulty_from_rating, hn1, hn2, h2]
  · intro h1 h2
    have hn1 : ¬(r < 1000) := by omega
    have hn2 : ¬(r < 1500) := by omega
    have hn3 : ¬(r < 2000) := by omega
    simp [get_difficulty_from_rating, hn1, hn2, hn3, h2]
  · intro h1
    have hn1 : ¬(r < 1000) := by omega
    have hn2 : ¬(r < 1500) := by omega
    have hn3 : ¬(r < 2000) := by omega
    have hn4 : ¬(r < 2500) := by omega
    simp [get_difficulty_from_rating, hn1, hn2, hn3, hn4]

/-- Witness for C6 at the concrete non-numeric rating `"unrated"` and the
concrete in-bucket rating 1200. -/
theorem rating_default_and_buckets_witness :
    parse_rating "unrated" = 1500 ∧
      get_difficulty_from_rating (parse_rating "unrated") = "medium" ∧
      gdm_rating_metadata "unrated" = (0, "medium") ∧
      get_difficulty_from_rating 1200 = "easy" := by
  obtain ⟨h1, h2, h3, _, h5, _⟩ := rating_default_and_buckets "unrated" (by decide) 1200
  exact ⟨h1, h2, h3, h5 (by norm_num) (by norm_num)⟩

/-- Counterexample to claim C7 as stated: in `convert_gdm_correct` an
unparseable move at an odd index (here `"??"` at index 1) runs `continue`,
skipping the board advance, and processing of later indices still occurs — the
run emits a position at index 3, and the output differs from the output on the
prefix that ends at the failing move. -/
theorem gdm_continue_counterexample :
    (selectEvalPositionsGdm haltEngine "pz" 0 0 ["a", "??", "c", "d"]).map
        EvalPosition.move_index_in_sequence = [3] ∧
      ¬(selectEvalPositionsGdm haltEngine "pz" 0 0 ["a", "??", "c", "d"] =
        selectEvalPositionsGdm haltEngine "pz" 0 0 ["a", "??"]) := by
  exact ⟨by decide, by decide⟩

/-- Claim C7 (amended): in `convert_lichess`, after a successful replay of a
prefix `ms1`, (a) a move that parses but is illegal at an odd index yields no
EvaluationPosition at that index, and (b) replay stops at the first move that
cannot be parsed or applied, keeping exactly the positions already emitted
(the output equals the output on the prefix ending at the failing move). In
`convert_gdm_correct`, by contrast, (c) a parse failure at an odd index skips
both the emission and the board advance and processing continues with the next
move on the same board. -/
theorem selector_illegal_halt {B M : Type} (E : Engine B M) (pid : String) (b b2 : B)
    (ms1 ms2 : List String) (mv : String)
    (hrep : replayMoves E b ms1 = some b2) :
    ((ms1.length % 2 = 1 → (∀ m, E.from_uci mv = some m → E.legal b2 m = false) →
        ∀ p ∈ selectEvalPositions E pid 0 b (ms1 ++ mv :: ms2),
          p.move_index_in_sequence ≠ ms1.length) ∧
      ((E.from_uci mv = none ∨ ∃ m, E.from_uci mv = some m ∧ E.push b2 m = none) →
        selectEvalPositions E pid 0 b (ms1 ++ mv :: ms2) =
          selectEvalPositions E pid 0 b (ms1 ++ [mv]))) ∧
    (∀ (idx : Nat) (c : B), idx % 2 = 1 → E.from_uci mv = none →
      selectEvalPositionsGdm E pid idx c (mv :: ms2) =
        selectEvalPositionsGdm E pid (idx + 1) c ms2) := by
  refine ⟨⟨?_, ?_⟩, ?_⟩
  · intro hodd hill p hp
    rw [selector_append_ok E pid (mv :: ms2) 0 hrep, Nat.zero_add] at hp
    rcases List.mem_append.mp hp with h1 | h2
    · have := (selector_mem_facts E pid ms1 0 b p h1).2.2.2
      omega
    · cases hfu : E.from_uci mv with
      | none =>
        rw [sel_cons_parse_none E pid _ hfu] at h2
        obtain ⟨_, _, m, hm, _⟩ := mem_emit_step E pid h2
        rw [hfu] at hm
        cases hm
      | some m =>
        have hleg : E.legal b2 m = false := hill m hfu
        have hz : emit_step E pid ms1.length b2 mv = [] :=
          emit_step_illegal E pid hfu hleg
        cases hpu : E.push b2 m with
        | none =>
          rw [sel_cons_push_none E pid _ hfu hpu, hz] at h2
          simp at h2
        | some b3 =>
          rw [sel_cons_step E pid _ hfu hpu, hz, List.nil_append] at h2
          have := (selector_mem_facts E pid ms2 (ms1.length + 1) b3 p h2).2.2.1
          omega
  · intro hfail
    rw [selector_append_ok E pid (mv :: ms2) 0 hrep,
      selector_append_ok E pid [mv] 0 hrep]
    congr 1
    rcases hfail with hfu | ⟨m, hfu, hpu⟩
    · rw [sel_cons_parse_none E pid _ hfu, sel_cons_parse_none E pid _ hfu]
    · rw [sel_cons_push_none E pid _ hfu hpu, sel_cons_push_none E pid _ hfu hpu]
  · intro idx c hodd hfu
    exact gdm_cons_odd_parse_none E pid ms2 hodd hfu

/-- Witness for C7 with a concrete engine: `"bad"` parses but is illegal and
cannot be pushed after the prefix `["e2e4"]`, so the lichess selector output
on `["e2e4", "bad", "x"]` equals the output on `["e2e4", "bad"]`; and the gdm
selector skips the unparseable `"??"` at an odd index without advancing. -/
theorem selector_illegal_halt_witness :
    selectEvalPositions haltEngine "pz" 0 0 (["e2e4"] ++ "bad" :: ["x"]) =
      selectEvalPositions haltEngine "pz" 0 0 (["e2e4"] ++ ["bad"]) ∧
    selectEvalPositionsGdm haltEngine "pz" 1 5 ("??" :: ["x"]) =
      selectEvalPositionsGdm haltEngine "pz" 2 5 ["x"] := by
  have h := selector_illegal_halt haltEngine "pz" 0 1 ["e2e4"] ["x"] "bad" (by decide)
  have h2 := selector_illegal_halt haltEngine "pz" 5 5 [] ["x"] "??" rfl
  exact ⟨h.1.2 (Or.inr ⟨"bad", rfl, rfl⟩), h2.2 1 5 (by norm_num) rfl⟩

/-- Counterexample to claim C8 as stated: the HAVE_CHESS-false fallback of
`convert_lichess` emits a position after only the syntactic
`is_plausible_uci` check, so with an engine in which no move is legal the
emitted `expected_move` is legal in no board at all. -/
theorem fallback_legality_counterexample :
    ¬(∀ p ∈ lichess_fallback "P1" "startpos" ["a1a2"],
        ∃ (b2 : Unit) (m : Unit), unitEngine.load p.fen = some b2 ∧
          unitEngine.from_uci p.correct_move = some m ∧ unitEngine.legal b2 m = true) := by
  intro hcl
  have hmem : (⟨"startpos", "a1a2", "P1", 0⟩ : EvalPosition) ∈
      lichess_fallback "P1" "startpos" ["a1a2"] := by decide
  obtain ⟨b2, m, _, _, hleg⟩ := hcl _ hmem
  cases b2
  cases m
  simp [unitEngine] at hleg

/-- Claim C8 (amended): on every code path of every converter that consults
the Board Replay Engine the invariant holds — every emitted position's
`expected_move` is legal per the engine in the recorded position at the
moment of creation. Conjunct by conjunct: the sequential selector of
`convert_lichess` (with the emitted position reached by replaying the move
prefix up to the emitted index), the sequential selector of
`convert_gdm_correct`, the first-move converters
(`convert_benchmarks.convert_gdm_puzzles`,
`convert_benchmarks.convert_lichess_puzzles`, `convert_gdm_action`, all of
the `gdm_first_move_position` shape), and the PGN path of
`convert_bigbench_checkmate`, whose emitted move comes from the engine's
`parse_san` — the hypothesis that `parse_san` returns only moves legal in its
board is exactly python-chess's contract (`parse_san` raises otherwise), the
guarantee this code path relies on. Only the chess-library-free fallback of
`convert_lichess` lies outside this invariant. -/
theorem emitted_move_legal_engine_paths {B M : Type} (E : Engine B M) (pid fen : String)
    (b : B) (ms : List String) :
    (∀ p ∈ selectEvalPositions E pid 0 b ms,
      ∃ b2 m, replayMoves E b (ms.take p.move_index_in_sequence) = some b2 ∧
        E.fen b2 = p.fen ∧ E.from_uci p.correct_move = some m ∧ E.legal b2 m = true) ∧
    (∀ p ∈ selectEvalPositionsGdm E pid 0 b ms,
      ∃ b2 m, E.fen b2 = p.fen ∧ E.from_uci p.correct_move = some m ∧
        E.legal b2 m = true) ∧
    (∀ p ∈ gdm_first_move_position E pid fen ms,
      ∃ b2 m, E.load p.fen = some b2 ∧ E.from_uci p.correct_move = some m ∧
        E.legal b2 m = true) ∧
    (∀ (load_pgn : String → Option B) (parse_san : B → String → Option M)
        (uci : M → String),
      (∀ (b2 : B) (s : String) (m : M), parse_san b2 s = some m → E.legal b2 m = true) →
      ∀ (pgn target : String) (p : EvalPosition),
        p ∈ bigbench_checkmate_position E load_pgn parse_san uci pgn target →
        ∃ b2 m, E.fen b2 = p.fen ∧ uci m = p.correct_move ∧ E.legal b2 m = true) := by
  refine ⟨?_, ?_, ?_, ?_⟩
  · intro p hp
    have h := selector_replay_facts E pid ms 0 b p hp
    simpa using h
  · intro p hp
    exact (gdm_mem_facts E pid ms 0 b p hp).2.2
  · intro p hp
    exact gdm_first_move_legal E pid fen ms p hp
  · intro load_pgn parse_san uci hsan pgn target p hp
    exact bigbench_checkmate_legal E load_pgn parse_san uci hsan pgn target p hp

/-- Witness for C8 at concrete engines and inputs: the position the selector
emits at index 1 is supported by a replayed board in which its move is legal,
and a position emitted by the bigbench parse_san path carries a move legal in
its final board. -/
theorem emitted_move_legal_engine_paths_witness :
    (∃ (b2 : Nat) (m : String), replayMoves natEngine 0 (["a", "b"].take 1) = some b2 ∧
      natEngine.fen b2 = "1" ∧ natEngine.from_uci "b" = some m ∧
      natEngine.legal b2 m = true) ∧
    (∃ (b2 : Nat) (m : String), natEngine.fen b2 = "7" ∧ m = "Qxf7" ∧
      natEngine.legal b2 m = true) := by
  refine ⟨?_, ?_⟩
  · have h := (emitted_move_legal_engine_paths natEngine "pz" "f" 0 ["a", "b"]).1
      ⟨"1", "b", "pz", 1⟩ (by decide)
    simpa using h
  · have h := (emitted_move_legal_engine_paths natEngine "pz" "f" 0 ["a", "b"]).2.2.2
      (fun _ => some 7) (fun _ s => some s) (fun s => s)
      (fun _ _ _ _ => rfl) "1. f3 e5 2. g4" "Qxf7" ⟨"7", "Qxf7", "", 0⟩ (by decide)
    simpa using h

/-- Claim C9: a failed decompression ends the run with no benchmark artifact
(the zstd-error `return 0` path of convert_lichess.py and the raised
`CalledProcessError` of the convert_benchmarks.py variant); only a successful
decompression produces an artifact. -/
theorem decompression_failure_no_artifact {B M : Type} (E : Engine B M) (cap : Nat)
    (msg : String) :
    convert_lichess_run E cap (Except.error msg) = none ∧
      ∀ rows, (convert_lichess_run E cap (Except.ok rows)).isSome = true :=
  ⟨rfl, fun _ => rfl⟩

/-- Claim C10: `process_fen_rook_style` succeeds exactly on inputs that split
on spaces into six fields; any other field count reaches the unpacking-error
branch. -/
theorem process_fen_six_fields (s : String) :
    (process_fen_rook_style s).isSome = true ↔ (s.splitOn " ").length = 6 := by
  unfold process_fen_rook_style
  generalize s.splitOn " " = l
  rcases l with _ | ⟨a, _ | ⟨b, _ | ⟨c, _ | ⟨d, _ | ⟨e, _ | ⟨f, _ | ⟨g, l⟩⟩⟩⟩⟩⟩⟩ <;>
    simp
